import Mathlib

/-!
Verification development for the Folha Ponto PDF-splitting server
(`server.py`).  The Python source is shallowly embedded: every pure text
utility is translated to an executable Lean function on `String` /
`List Char`, the per-page processing loop becomes an explicit recursive
function threading statistics, emitted events, the output directory
contents and a cancellation-checkpoint counter, and the
WebSocket replay buffer becomes a small deterministic state machine.

Modelling conventions, stated once:
* Python `re` is embedded by a faithful backtracking matcher (`mrun`) for
  the exact constructs the source patterns use: literals, single-character
  classes, greedy and lazy counted repetition of a class, ordered
  alternation, atomic lookahead and one capture group.  `re.search` scans
  start positions left to right.
* `str.upper`, `\s`, `\d`, `\w` and `str.strip` are modelled on the
  Basic Latin and Latin-1 ranges the documents use (identity elsewhere).
* The shared mutable cancellation flag is modelled as a function
  `cancel : Nat → Bool` giving the value read at the n-th checkpoint
  consult; real cancellation only ever sets the flag, which is the
  `StickyCancel` hypothesis.
* PyMuPDF `Document.write` is a parameter `w : Nat → WriteOpts → Option Bytes`
  per page; `none` models the call raising (the `try`/`except` around the
  linearised write).  OS-level failures (`open`, `makedirs`, zipping) are
  outside the model.
-/

namespace FolhaPonto

/-- Python regex `\s` (ASCII whitespace as used by these documents). -/
def isWS (c : Char) : Bool :=
  c == ' ' || c == '\t' || c == '\n' || c == '\x0d' || c == '\x0b' || c == '\x0c'

/-- The character class `[A-ZÀ-Ý ]` from the name patterns and
`sanitize_name_tokens`. -/
def isNameCh (c : Char) : Bool :=
  ('A' ≤ c && c ≤ 'Z') || ('À' ≤ c && c ≤ 'Ý') || c == ' '

/-- Python regex `\w` (word character), modelled on Basic Latin plus the
Latin-1 letters and alphanumeric signs; identity of the concept elsewhere
is irrelevant to the inputs considered. -/
def isWordCh (c : Char) : Bool :=
  c.isAlpha || c.isDigit || c == '_' ||
  ('À' ≤ c && c ≤ 'Ö') || ('Ø' ≤ c && c ≤ 'ö') || ('ø' ≤ c && c ≤ 'ÿ') ||
  c == 'ª' || c == 'º' || c == 'µ' ||
  c == '²' || c == '³' || c == '¹' || c == '¼' || c == '½' || c == '¾'

/-- CPython `str.upper` for one character, on the Basic Latin and Latin-1
ranges (including the two-character uppercase of `ß` and the special cases
`ÿ` and `µ`); identity outside those ranges. -/
def pyUpperChar (c : Char) : List Char :=
  if 'a' ≤ c && c ≤ 'z' then [Char.ofNat (c.toNat - 32)]
  else if c == 'ß' then ['S', 'S']
  else if c == 'ÿ' then ['Ÿ']
  else if c == 'µ' then ['Μ']
  else if ('à' ≤ c && c ≤ 'ö') || ('ø' ≤ c && c ≤ 'þ') then [Char.ofNat (c.toNat - 32)]
  else [c]

/-- CPython `str.upper` on a character list. -/
def pyUpper (l : List Char) : List Char :=
  (l.map pyUpperChar).flatten

/-- `re.sub(r'\s+', ' ', -)`: every maximal run of whitespace becomes a
single space.  The flag records whether we are inside a run whose single
space was already emitted. -/
def collapseWS : Bool → List Char → List Char
  | _, [] => []
  | inRun, c :: rest =>
    if isWS c then
      (if inRun then collapseWS true rest else ' ' :: collapseWS true rest)
    else c :: collapseWS false rest

/-- Right side of `str.strip()`: remove trailing whitespace. -/
def rtrimWS : List Char → List Char
  | [] => []
  | c :: rest => if (rtrimWS rest).isEmpty && isWS c then [] else c :: rtrimWS rest

/-- `str.strip()`: remove leading and trailing whitespace. -/
def trimWS (l : List Char) : List Char :=
  rtrimWS (l.dropWhile isWS)

/-- `str.replace('-\n', ' ')`: left-to-right non-overlapping replacement. -/
def replaceDashNL : List Char → List Char
  | '-' :: '\n' :: rest => ' ' :: replaceDashNL rest
  | c :: rest => c :: replaceDashNL rest
  | [] => []

/-- `clean_text` (server.py:39-41): join hyphenated line breaks, collapse
whitespace, strip, upper-case. -/
def clean_text (txt : String) : String :=
  ⟨pyUpper (trimWS (collapseWS false (replaceDashNL txt.data)))⟩

/-- Characters removed by the filename sanitizer: `[\\/:*?"<>|]`. -/
def isIllegalCh (c : Char) : Bool :=
  c == '\\' || c == '/' || c == ':' || c == '*' || c == '?' ||
  c == '"' || c == '<' || c == '>' || c == '|'

/-- First stage of `sanitize_filename`: `re.sub(r'[\\/:*?"<>|]', ' ', s)`. -/
def replaceIllegal (l : List Char) : List Char :=
  l.map (fun c => if isIllegalCh c then ' ' else c)

/-- The character list produced by the three rewriting stages of
`sanitize_filename` (server.py:76-77): replace illegal characters by
spaces, collapse whitespace runs, strip. -/
def sanitizedCore (s : String) : List Char :=
  trimWS (collapseWS false (replaceIllegal s.data))

/-- `sanitize_filename` (server.py:75-78). -/
def sanitize_filename (s : String) : String :=
  if (sanitizedCore s).isEmpty then "ARQUIVO" else ⟨sanitizedCore s⟩

/-- Checker that no two adjacent characters are both whitespace
(verification-internal, used to characterise sanitizer outputs). -/
def noAdjWS : List Char → Bool
  | [] => true
  | [_] => true
  | a :: b :: rest => (!(isWS a && isWS b)) && noAdjWS (b :: rest)

/-- Checker that the first character, if any, is not whitespace
(verification-internal). -/
def headNonWS : List Char → Bool
  | [] => true
  | c :: _ => !isWS c

/-- Checker that the last character, if any, is not whitespace
(verification-internal). -/
def lastNonWS : List Char → Bool
  | [] => true
  | [c] => !isWS c
  | _ :: c :: rest => lastNonWS (c :: rest)

/-- Python `str.split()` with no argument: maximal runs of
non-separator characters, empty pieces dropped.  `acc` holds the current
word reversed. -/
def wordsByAux (p : Char → Bool) : List Char → List Char → List (List Char)
  | [], acc => if acc.isEmpty then [] else [acc.reverse]
  | c :: rest, acc =>
    if p c then
      (if acc.isEmpty then wordsByAux p rest [] else acc.reverse :: wordsByAux p rest [])
    else wordsByAux p rest (c :: acc)

/-- Python `str.split()` (whitespace, dropping empties). -/
def pySplitWS (l : List Char) : List String :=
  (wordsByAux isWS l []).map (fun w => (⟨w⟩ : String))

/-- `STOPWORDS` (server.py:20). -/
def STOPWORDS : List String :=
  ["CARGO", "ENDERECO", "ATIVIDADE", "EMPREGADOR", "CIDADE", "RUA",
   "ASSINATURA", "CTPS", "CNPS", "CNPJ", "CGC"]

/-- The `tokens` local of `sanitize_name_tokens` (server.py:69-71),
which is also the token pipeline the spec describes: characters outside
`[A-ZÀ-Ý ]` are stripped (each acting as a token separator), the
remainder is split into tokens, and tokens shorter than 2 characters or
equal to a stopword are discarded. -/
def survivingTokens (name : String) : List String :=
  (pySplitWS (name.data.map (fun c => if isNameCh c then c else ' '))).filter
    (fun t => decide (2 ≤ t.length) && !(STOPWORDS.contains t))

/-- `sanitize_name_tokens` (server.py:67-73). -/
def sanitize_name_tokens (name : String) : Option String :=
  if name == "" then none
  else if (survivingTokens name).length < 2 then none
  else some (String.intercalate " " ((survivingTokens name).take 6))

/-- Decimal digit character for a value below 10. -/
def digitChar (d : Nat) : Char := Char.ofNat (48 + d)

/-- Decimal digits, least significant first; the fuel (one digit per
unit) keeps the recursion structural.  Any fuel at least the value gives
the digits of the value. -/
def toDigitsRevAux : Nat → Nat → List Char
  | 0, _ => []
  | _ + 1, 0 => []
  | fuel + 1, n + 1 => digitChar ((n + 1) % 10) :: toDigitsRevAux fuel ((n + 1) / 10)

/-- Decimal digits of a positive number, least significant first. -/
def toDigitsRev (n : Nat) : List Char := toDigitsRevAux n n

/-- Value of a little-endian decimal digit list (inverse of `toDigitsRev`). -/
def fromDigitsRev : List Char → Nat
  | [] => 0
  | c :: rest => (c.toNat - 48) + 10 * fromDigitsRev rest

/-- Python `str(n)` for a natural number. -/
def natToDec (n : Nat) : String :=
  if n == 0 then "0" else ⟨(toDigitsRev n).reverse⟩

/-- Numeric value of a (big-endian) digit string, Python `int(s)`. -/
def decVal (l : List Char) : Nat :=
  l.foldl (fun n c => n * 10 + (c.toNat - 48)) 0

/-- Value of a decimal string rendering (used to invert `natToDec`). -/
def decodeDec (s : String) : Nat :=
  fromDigitsRev s.data.reverse

/-- `os.path.basename` (POSIX): the part after the last slash. -/
def basenamePosix (l : List Char) : List Char :=
  (l.reverse.takeWhile (fun c => c ≠ '/')).reverse

/-- `os.path.splitext(-)[0]` on a basename: cut at the last dot unless
every character before it is a dot (leading dots carry no extension). -/
def splitextStem (f : List Char) : List Char :=
  match f.reverse.findIdx? (fun c => c == '.') with
  | none => f
  | some j =>
    let dotIdx := f.length - 1 - j
    if (f.take dotIdx).all (fun c => c == '.') then f else f.take dotIdx

/-- `re.findall(r'\b(\d{3,})\b', -)`: the maximal digit runs of length at
least 3 whose neighbours (if any) are not word characters.  `prevW` says
whether the previous character was a word character. -/
def findCodesAux : Nat → Bool → List Char → List (List Char)
  | 0, _, _ => []
  | _ + 1, _, [] => []
  | fuel + 1, prevW, c :: rest =>
    if c.isDigit && !prevW then
      let run := c :: rest.takeWhile Char.isDigit
      let rest2 := rest.dropWhile Char.isDigit
      let nextOk : Bool :=
        match rest2 with
        | [] => true
        | d :: _ => !isWordCh d
      if decide (3 ≤ run.length) && nextOk then run :: findCodesAux fuel true rest2
      else findCodesAux fuel true rest2
    else findCodesAux fuel (isWordCh c) rest

/-- The numeric ids found in one input filename
(`re.findall(r'\b(\d{3,})\b', name_upper)` on the upper-cased stem).
Each recursive step of `findCodesAux` consumes at least one character,
so fuel equal to the length scans the whole string. -/
def codesOfName (name : String) : List (List Char) :=
  let l := pyUpper (splitextStem (basenamePosix name.data))
  findCodesAux l.length false l

/-- The accumulated id set over all input filenames.  Python uses a
`set`; it is modelled as a duplicate-free list in first-insertion order
(the subsequent numeric sort makes the result order-independent except
for distinct strings of equal value). -/
def extractedCodes (filenames : List String) : List (List Char) :=
  filenames.foldl
    (fun acc name =>
      (codesOfName name).foldl (fun a c => if a.contains c then a else a ++ [c]) acc)
    []

/-- Stable insertion of `x` into a value-sorted list: `x` goes before
the first element of numeric value at least its own, so earlier-inserted
codes of equal value keep their relative order, as Python's stable
`sorted(key=int)` does. -/
def insertByVal (x : List Char) : List (List Char) → List (List Char)
  | [] => [x]
  | y :: rest =>
    if decVal y < decVal x then y :: insertByVal x rest else x :: y :: rest

/-- Stable sort by numeric value, modelling `sorted(codes, key=int)`. -/
def sortByVal : List (List Char) → List (List Char)
  | [] => []
  | x :: rest => insertByVal x (sortByVal rest)

/-- Join `xs` with separator `sep`. -/
def joinWith (sep : List Char) (xs : List (List Char)) : List Char :=
  match xs with
  | [] => []
  | x :: rest => x ++ (rest.map (fun y => sep ++ y)).flatten

/-- `base = "_&_".join(sorted_codes)` (server.py:92). -/
def zipBase (sortedCodes : List (List Char)) : List Char :=
  joinWith "_&_".data sortedCodes

/-- `base if len(base) < 60 else base[:57] + '...'` (server.py:93). -/
def truncatedBase (base : List Char) : String :=
  if base.length < 60 then (⟨base⟩ : String) else (⟨base.take 57⟩ : String) ++ "..."

/-- `generate_zip_filename` (server.py:80-93). -/
def generate_zip_filename (filenames : List String) : String :=
  if 5 < filenames.length then "projetos_renomeados.zip"
  else if (extractedCodes filenames).isEmpty then "documentos_desmembrados.zip"
  else truncatedBase (zipBase (sortByVal (extractedCodes filenames))) ++ ".zip"

/-! ### Regex engine

A faithful backtracking matcher for the constructs used by
`NAME_PATTERNS` and `ZERADO_PATTERNS`: literals, single-character
classes, counted greedy/lazy repetition of a class, ordered alternation,
atomic lookahead `(?=...)` and a single capture group. -/

/-- Abstract syntax of the source's regular expressions. -/
inductive RE where
  | lit : List Char → RE
  | rep : (Char → Bool) → Nat → Bool → RE
  | seq : RE → RE → RE
  | alt : RE → RE → RE
  | look : RE → RE
  | grp : RE → RE

/-- Length of the maximal run of class characters at the front. -/
def countRun (p : Char → Bool) : List Char → Nat
  | [] => 0
  | c :: rest => if p c then countRun p rest + 1 else 0

/-- First successful application of `f` along a list (backtracking order). -/
def firstSome (f : Nat → Option β) : List Nat → Option β
  | [] => none
  | n :: rest =>
    match f n with
    | some r => some r
    | none => firstSome f rest

/-- Match a literal at the front, returning the remainder. -/
def litMatch : List Char → List Char → Option (List Char)
  | [], s => some s
  | _ :: _, [] => none
  | c :: cs, d :: ds => if c = d then litMatch cs ds else none

/-- The backtracking matcher in continuation style.  `cap` is the capture
state, `k` the continuation receiving the remaining input and capture.
`rep p min lazyF` tries the possible counts in engine order: shortest
first when lazy, longest first when greedy.  `look` is atomic, as in
CPython.  `grp` records the characters its body consumed (all constructs
consume a prefix of their input). -/
def mrun : RE → List Char → Option (List Char) →
    (List Char → Option (List Char) → Option (List Char)) → Option (List Char)
  | RE.lit cs, s, cap, k =>
    (match litMatch cs s with
     | some rest => k rest cap
     | none => none)
  | RE.rep p mn lazyF, s, cap, k =>
    let m := countRun p s
    if mn > m then none
    else
      firstSome (fun n => k (s.drop n) cap)
        ((List.range (m - mn + 1)).map (fun j => if lazyF then mn + j else m - j))
  | RE.seq r1 r2, s, cap, k => mrun r1 s cap (fun s2 c2 => mrun r2 s2 c2 k)
  | RE.alt r1 r2, s, cap, k =>
    (match mrun r1 s cap k with
     | some r => some r
     | none => mrun r2 s cap k)
  | RE.look r, s, cap, k =>
    (match mrun r s cap (fun _ _ => some []) with
     | some _ => k s cap
     | none => none)
  | RE.grp r, s, cap, k =>
    mrun r s cap (fun s2 _ => k s2 (some (s.take (s.length - s2.length))))

/-- Does the pattern match starting exactly here?  On success, the
content of the capture group. -/
def matchHere (r : RE) (s : List Char) : Option (List Char) :=
  mrun r s none (fun _ cap => some (cap.getD []))

/-- `re.search`: try every start position left to right. -/
def reSearch (r : RE) : List Char → Option (List Char)
  | [] => matchHere r []
  | c :: rest =>
    (match matchHere r (c :: rest) with
     | some g => some g
     | none => reSearch r rest)

/-- Chain a pattern list into a sequence. -/
def seqL : List RE → RE
  | [] => RE.lit []
  | [r] => r
  | r :: rest => RE.seq r (seqL rest)

/-- Ordered alternation `r | r1 | r2 | ...` (leftmost alternative first). -/
def altL (r : RE) (rs : List RE) : RE := rs.foldl RE.alt r

/-- `NAME_PATTERNS[0]`:
`LOCALIZAÇÃO:\s*\d+\s+([A-ZÀ-Ý ]{5,}?)(?=\s+(?:\d{5,}|CTPS:|MENSALISTA|CATEGORIA:|HORÁRIOS:))`. -/
def pat1 : RE :=
  seqL [RE.lit "LOCALIZAÇÃO:".data, RE.rep isWS 0 false, RE.rep Char.isDigit 1 false,
    RE.rep isWS 1 false, RE.grp (RE.rep isNameCh 5 true),
    RE.look (RE.seq (RE.rep isWS 1 false)
      (altL (RE.rep Char.isDigit 5 false)
        [RE.lit "CTPS:".data, RE.lit "MENSALISTA".data, RE.lit "CATEGORIA:".data,
         RE.lit "HORÁRIOS:".data]))]

/-- `NAME_PATTERNS[1]`:
`EMPREGADO:\s*\d+\s+([A-ZÀ-Ý ]{5,}?)(?=\s+(?:CARGO:|LOCALIZAÇÃO:|CTPS:|CATEGORIA:))`. -/
def pat2 : RE :=
  seqL [RE.lit "EMPREGADO:".data, RE.rep isWS 0 false, RE.rep Char.isDigit 1 false,
    RE.rep isWS 1 false, RE.grp (RE.rep isNameCh 5 true),
    RE.look (RE.seq (RE.rep isWS 1 false)
      (altL (RE.lit "CARGO:".data)
        [RE.lit "LOCALIZAÇÃO:".data, RE.lit "CTPS:".data, RE.lit "CATEGORIA:".data]))]

/-- `NAME_PATTERNS[2]`: `EMPREGADO:\s*([A-ZÀ-Ý ]{5,})`. -/
def pat3 : RE :=
  seqL [RE.lit "EMPREGADO:".data, RE.rep isWS 0 false, RE.grp (RE.rep isNameCh 5 false)]

/-- `ZERADO_PATTERNS[0]`: `CADASTRO:\s*\d+\s+([A-ZÀ-Ý ]{5,}?)(?=\s+CNPJ)`. -/
def patZ : RE :=
  seqL [RE.lit "CADASTRO:".data, RE.rep isWS 0 false, RE.rep Char.isDigit 1 false,
    RE.rep isWS 1 false, RE.grp (RE.rep isNameCh 5 true),
    RE.look (RE.seq (RE.rep isWS 1 false) (RE.lit "CNPJ".data))]

/-- `NAME_PATTERNS` (server.py:21-25). -/
def NAME_PATTERNS : List RE := [pat1, pat2, pat3]

/-- `ZERADO_PATTERNS` (server.py:26-28). -/
def ZERADO_PATTERNS : List RE := [patZ]

/-- The source loops `for p in patterns: m = re.search(p, s); if m:
return m.group(1).strip()`: first matching pattern wins, its group is
stripped at the return site. -/
def tryPatterns : List RE → List Char → Option (List Char)
  | [], _ => none
  | p :: rest, s =>
    match reSearch p s with
    | some g => some (trimWS g)
    | none => tryPatterns rest s

/-- `re.sub(r'\s+', ' ', raw).strip().upper()` (server.py:59). -/
def normRawUpper (raw : String) : List Char :=
  pyUpper (trimWS (collapseWS false raw.data))

/-- `extract_name` (server.py:43-65): classic patterns on the cleaned
text, then zerado patterns on the cleaned text, then — when the raw text
is truthy — zerado patterns on the re-normalised upper-cased raw text. -/
def extract_name (text_clean : String) (text_raw : Option String) : Option String :=
  match tryPatterns NAME_PATTERNS text_clean.data with
  | some g => some ⟨g⟩
  | none =>
    match tryPatterns ZERADO_PATTERNS text_clean.data with
    | some g => some ⟨g⟩
    | none =>
      match text_raw with
      | some raw =>
        if raw == "" then none
        else (tryPatterns ZERADO_PATTERNS (normRawUpper raw)).map (fun g => (⟨g⟩ : String))
      | none => none

/-- First match of an ordered rule list, group not yet trimmed. -/
def firstRuleMatch : List RE → List Char → Option (List Char)
  | [], _ => none
  | p :: rest, s =>
    match reSearch p s with
    | some g => some g
    | none => firstRuleMatch rest s

/-- The Name Extractor as the spec describes it: apply the ordered
primary rule list and return the first match's captured group, trimmed;
only if no primary rule matches try the secondary set, first on the
normalized text, then — only if still unmatched and raw text is
present — on a whitespace-collapsed and upper-cased copy of the raw
text; otherwise no-match. -/
def extract_name_spec (text_clean : String) (text_raw : Option String) : Option String :=
  ((firstRuleMatch NAME_PATTERNS text_clean.data).map (fun g => (⟨trimWS g⟩ : String))).orElse
    (fun _ =>
      ((firstRuleMatch ZERADO_PATTERNS text_clean.data).map (fun g => (⟨trimWS g⟩ : String))).orElse
        (fun _ =>
          text_raw.bind (fun raw =>
            (firstRuleMatch ZERADO_PATTERNS (normRawUpper raw)).map
              (fun g => (⟨trimWS g⟩ : String)))))

/-! ### Job processing model

`process_pdf_to_folder` and `process_normal_job` (server.py:124-232),
embedded as pure recursive functions.  A document is its list of
per-page extracted texts (`page.get_text("text")`).  The model threads
the per-document statistics, the job-wide list of emitted events, the
set of filenames already present in the document's output directory and
the index of the next read of the shared cancellation flag. -/

/-- Keyword options of `fitz.Document.write`. -/
structure WriteOpts where
  garbage : Nat
  deflate : Bool
  clean : Bool
  linear : Bool
deriving DecidableEq, Repr

/-- Options of the optimised write attempt (server.py:163). -/
def linearOpts : WriteOpts := ⟨4, true, true, true⟩

/-- Options of the fallback write after the optimised attempt raised
(server.py:166): garbage collection, deflate and clean retained, only
linearisation dropped. -/
def fallbackOpts : WriteOpts := ⟨4, true, true, false⟩

/-- Options of the plain `out_doc.write()` call without compression
(server.py:168): all defaults. -/
def plainOpts : WriteOpts := ⟨0, false, false, false⟩

/-- Bytes written for page `i` (server.py:161-168).  The serializer `w`
returns `none` when the corresponding `write` call raises.  With
compression, the optimised write is attempted and on failure the
non-linearised write is used; without compression the default write. -/
def pageWriteBytes (w : Nat → WriteOpts → Option (List Nat)) (compress : Bool) (i : Nat) :
    Option (List Nat) :=
  if compress then
    match w i linearOpts with
    | some b => some b
    | none => w i fallbackOpts
  else w i plainOpts

/-- The serialization step as claim C7 words it: on failure of the
optimised path, fall back to an *uncompressed* serialization (the
default `write()` options). -/
def pageWriteBytesClaim (w : Nat → WriteOpts → Option (List Nat)) (compress : Bool) (i : Nat) :
    Option (List Nat) :=
  if compress then
    match w i linearOpts with
    | some b => some b
    | none => w i plainOpts
  else w i plainOpts

/-- Per-document statistics dict (server.py:127). -/
structure Stats where
  renamed : Nat
  manual : Nat
  manualPages : List String
  file : String
  pages : Nat
deriving DecidableEq, Repr

/-- Per-file entry of `total_stats["files"]` (server.py:200-205). -/
structure FileSummary where
  file : String
  pages : Nat
  renamed : Nat
  manual : Nat
deriving DecidableEq, Repr

/-- `total_stats` of a job (server.py:187). -/
structure TotalStats where
  renamed : Nat
  manual : Nat
  manualPages : List String
  files : List FileSummary
deriving DecidableEq, Repr

/-- Events emitted through `emit_from_worker`.  URL strings are
modelled by the archive filename alone. -/
inductive Ev where
  | file_start (file : String) (pages : Nat)
  | page_done (file : String) (page : Nat) (newName : String)
  | finished (urls : List String) (summary : TotalStats)
  | cancelled (urls : List String) (summary : TotalStats)
  | error (msg : String)
deriving DecidableEq, Repr

/-- Number of `page_done` events in a list. -/
def countPD (evs : List Ev) : Nat :=
  evs.countP (fun e =>
    match e with
    | Ev.page_done _ _ _ => true
    | _ => false)

/-- State threaded through the page loop: current document statistics,
job-wide emitted events, filenames already in the document's output
directory, and the index of the next cancellation-flag read. -/
structure PState where
  stats : Stats
  evs : List Ev
  fs : List String
  ctr : Nat
deriving DecidableEq, Repr

/-- Candidate output filename for collision counter `k`
(server.py:152-155): `{final}.pdf` for `k = 0`, `{final}_{k}.pdf` after. -/
def candName (final : String) (k : Nat) : String :=
  if k = 0 then final ++ ".pdf" else final ++ "_" ++ natToDec k ++ ".pdf"

/-- The `while os.path.exists` loop (server.py:153-155): the first
candidate not already present.  Searching `fs.length + 1` candidates
always succeeds (shown below); the default never fires. -/
def resolveOutName (fs : List String) (final : String) : String :=
  match (List.range (fs.length + 1)).find? (fun k => !(fs.contains (candName final k))) with
  | some k => candName final k
  | none => final ++ ".pdf"

/-- Chosen filename stem and manual flag for one page (server.py:138-145):
extract, sanitize tokens, fall back to the `MANUAL_` name, and sanitize
for the filesystem. -/
def pageName (base : String) (i : Nat) (rawText : String) : String × Bool :=
  let text := clean_text rawText
  let rawName := extract_name text (some rawText)
  let final0 :=
    match rawName with
    | some r => if r == "" then none else sanitize_name_tokens r
    | none => none
  match final0 with
  | some f => (sanitize_filename f, false)
  | none => (sanitize_filename ("MANUAL_" ++ base ++ "_" ++ natToDec (i + 1)), true)

/-- Processing of one page after the cancellation check
(server.py:137-171): name the page, update the statistics, write the
single-page document unless this is a metric run, then emit `page_done`.
A write failure (both serializations raised) aborts with the events
emitted so far. -/
def processPage (w : Nat → WriteOpts → Option (List Nat)) (compress metric : Bool)
    (base : String) (i : Nat) (rawText : String) (st : PState) : Except (List Ev) PState :=
  let fb := pageName base i rawText
  let stats1 :=
    if fb.2 then
      { st.stats with
        manual := st.stats.manual + 1,
        manualPages := st.stats.manualPages ++
          ["Página " ++ natToDec (i + 1) ++ " de " ++ base ++ ".pdf"] }
    else { st.stats with renamed := st.stats.renamed + 1 }
  if metric then
    Except.ok { st with stats := stats1, evs := st.evs ++ [Ev.page_done base (i + 1) fb.1] }
  else
    match pageWriteBytes w compress i with
    | none => Except.error st.evs
    | some _ =>
      Except.ok
        { st with
          stats := stats1,
          evs := st.evs ++ [Ev.page_done base (i + 1) fb.1],
          fs := st.fs ++ [resolveOutName st.fs fb.1] }

/-- The page loop (server.py:132-171): before each page the shared
cancellation flag is read once; a `true` read breaks out of the
document. -/
def processPagesLoop (w : Nat → WriteOpts → Option (List Nat)) (compress metric : Bool)
    (cancel : Nat → Bool) (base : String) :
    List String → Nat → PState → Except (List Ev) PState
  | [], _, st => Except.ok st
  | rawText :: rest, i, st =>
    if cancel st.ctr then Except.ok { st with ctr := st.ctr + 1 }
    else
      match processPage w compress metric base i rawText { st with ctr := st.ctr + 1 } with
      | Except.error evs => Except.error evs
      | Except.ok st2 => processPagesLoop w compress metric cancel base rest (i + 1) st2

/-- `process_pdf_to_folder` (server.py:124-172): fresh statistics and a
fresh output directory for the document, `file_start`, then the page
loop. -/
def process_pdf_to_folder (w : Nat → WriteOpts → Option (List Nat)) (compress metric : Bool)
    (cancel : Nat → Bool) (base : String) (pages : List String) (st0 : PState) :
    Except (List Ev) PState :=
  processPagesLoop w compress metric cancel base pages 0
    { stats := { renamed := 0, manual := 0, manualPages := [], file := base, pages := pages.length },
      evs := st0.evs ++ [Ev.file_start base pages.length],
      fs := [],
      ctr := st0.ctr }

/-- State of the file loop of `process_normal_job`. -/
structure TState where
  totals : TotalStats
  evs : List Ev
  ctr : Nat
deriving DecidableEq, Repr

/-- Fold one document's statistics into the job totals
(server.py:197-205). -/
def addFileStats (t : TotalStats) (s : Stats) : TotalStats :=
  { renamed := t.renamed + s.renamed,
    manual := t.manual + s.manual,
    manualPages := t.manualPages ++ s.manualPages,
    files := t.files ++ [⟨s.file, s.pages, s.renamed, s.manual⟩] }

/-- The file loop of `process_normal_job` (server.py:191-207): the
cancellation flag is read before each file and again after it; a `true`
read breaks the loop. -/
def normalLoop (w : Nat → WriteOpts → Option (List Nat)) (compress : Bool)
    (cancel : Nat → Bool) : List (String × List String) → TState → Except (List Ev) TState
  | [], t => Except.ok t
  | (fname, pages) :: rest, t =>
    if cancel t.ctr then Except.ok { t with ctr := t.ctr + 1 }
    else
      match process_pdf_to_folder w compress false cancel (⟨splitextStem fname.data⟩ : String)
          pages ⟨⟨0, 0, [], "", 0⟩, t.evs, [], t.ctr + 1⟩ with
      | Except.error evs => Except.error evs
      | Except.ok st =>
        let t2 : TState := ⟨addFileStats t.totals st.stats, st.evs, st.ctr⟩
        if cancel t2.ctr then Except.ok { t2 with ctr := t2.ctr + 1 }
        else normalLoop w compress cancel rest { t2 with ctr := t2.ctr + 1 }

/-- URLs of the built archive (server.py:208-212): present when the job
was neither empty nor cancelled at that check; modelled by the archive
filename. -/
def jobZipUrls (cancel : Nat → Bool) (files : List (String × List String)) (t : TState) :
    List String :=
  if !files.isEmpty && !cancel t.ctr then [generate_zip_filename (files.map Prod.fst)]
  else []

/-- `process_normal_job` (server.py:183-232).  A job is a list of
`(filename, page texts)` pairs.  After the file loop the archive is
built and named when the job was neither empty nor cancelled; a
cancelled job gets the partial archive and a `cancelled` event,
otherwise `finished` is emitted.  An uncaught exception emits `error`. -/
def process_normal_job (w : Nat → WriteOpts → Option (List Nat)) (compress : Bool)
    (cancel : Nat → Bool) (files : List (String × List String)) : List Ev :=
  match normalLoop w compress cancel files ⟨⟨0, 0, [], []⟩, [], 0⟩ with
  | Except.error evs => evs ++ [Ev.error "exception"]
  | Except.ok t =>
    if cancel (t.ctr + 1) then
      t.evs ++ [Ev.cancelled (jobZipUrls cancel files t ++ ["parcial_cancelado.zip"]) t.totals]
    else t.evs ++ [Ev.finished (jobZipUrls cancel files t) t.totals]

/-- The real cancellation flag is only ever set, never cleared
(server.py:1148): once a read returns `true`, all later reads do. -/
def StickyCancel (cancel : Nat → Bool) : Prop :=
  ∀ i j, i ≤ j → cancel i = true → cancel j = true

/-! ### WebSocket replay buffer

`emit` (server.py:95-117) and the connection handler `ws_progress`
(server.py:1151-1178), as a deterministic state machine.  Handler
executions are modelled as atomic steps. -/

/-- Messages a connected observer receives. -/
inductive Msg where
  | hello
  | init
  | ev (e : Ev)
deriving DecidableEq, Repr

/-- State of one job's event delivery: the replay buffer (`some` while
`job["buffer"]` is a list, `none` once retired), whether `files_meta` is
non-empty, the list of connected observers, and the messages each
observer has received. -/
structure WSState where
  buffer : Option (List Ev)
  hasMeta : Bool
  obs : List Nat
  recv : Nat → List Msg

/-- Job state right after upload (server.py:1125-1133): empty buffer
list, no observers yet. -/
def wsInit (hasMeta : Bool) : WSState :=
  { buffer := some [], hasMeta := hasMeta, obs := [], recv := fun _ => [] }

/-- `emit` (server.py:95-117): with no connected observers the event is
appended to the buffer when it is still a list and silently dropped
otherwise; with observers connected it is delivered to each of them. -/
def wsEmit (s : WSState) (e : Ev) : WSState :=
  if s.obs.isEmpty then
    match s.buffer with
    | some buf => { s with buffer := some (buf ++ [e]) }
    | none => s
  else
    { s with recv := fun o => if o ∈ s.obs then s.recv o ++ [Msg.ev e] else s.recv o }

/-- `ws_progress` connection setup (server.py:1153-1171): register the
observer, send `hello`, send `init` when metadata is available, flush
the whole buffer to this observer only, and retire the buffer. -/
def wsAttach (s : WSState) (o : Nat) : WSState :=
  let msgs :=
    [Msg.hello] ++ (if s.hasMeta then [Msg.init] else []) ++
      (match s.buffer with
       | some buf => buf.map Msg.ev
       | none => [])
  { buffer := none,
    hasMeta := s.hasMeta,
    obs := s.obs ++ [o],
    recv := fun o2 => if o2 = o then s.recv o2 ++ msgs else s.recv o2 }

/-- Disconnection (server.py:1176-1178): remove the socket. -/
def wsDetach (s : WSState) (o : Nat) : WSState :=
  { s with obs := s.obs.erase o }

/-- Interaction steps on a job's delivery state. -/
inductive WStep where
  | emit (e : Ev)
  | attach (o : Nat)
  | detach (o : Nat)

/-- One step of the delivery machine. -/
def wsStep (s : WSState) : WStep → WSState
  | WStep.emit e => wsEmit s e
  | WStep.attach o => wsAttach s o
  | WStep.detach o => wsDetach s o

/-- Run a list of steps. -/
def wsRun (s : WSState) (ss : List WStep) : WSState :=
  ss.foldl wsStep s

/-! ### Concrete instances used to witness the theorems -/

/-- A serializer for which every write succeeds. -/
def serOK : Nat → WriteOpts → Option (List Nat) := fun _ _ => some [7]

/-- A serializer for which exactly the linearised write raises, and
whose output records the deflate flag. -/
def serLinFail : Nat → WriteOpts → Option (List Nat) :=
  fun _ opts => if opts.linear then none else some [if opts.deflate then 1 else 0]

/-- A cancellation flag that is never set. -/
def cancelNever : Nat → Bool := fun _ => false

/-- A cancellation flag set from the k-th read on. -/
def cancelFrom (k : Nat) : Nat → Bool := fun n => decide (k ≤ n)

/-- A delivery state whose replay buffer is already retired. -/
def wsRetiredEx : WSState :=
  { buffer := none, hasMeta := true, obs := [], recv := fun _ => [] }

/-! ## Theorems -/

/-- C1.  The Name Sanitizer keeps exactly the tokens surviving the
character filter, the length-2 threshold and the stopword filter; fewer
than 2 survivors give no-match, otherwise the first 6 survivors joined
by single spaces.  In particular the four example inputs behave as the
spec states. -/
theorem claim_C1 :
    (∀ name : String,
      sanitize_name_tokens name =
        if 2 ≤ (survivingTokens name).length then
          some (String.intercalate " " ((survivingTokens name).take 6))
        else none)
    ∧ sanitize_name_tokens "CARGO" = none
    ∧ sanitize_name_tokens "JOAO" = none
    ∧ sanitize_name_tokens "JOAO DA SILVA" = some "JOAO DA SILVA"
    ∧ sanitize_name_tokens "CARGO JOAO SILVA" = some "JOAO SILVA" := by
  refine ⟨fun name => ?_, by decide, by decide, by decide, by decide⟩
  unfold sanitize_name_tokens
  by_cases h0 : name = ""
  · subst h0
    decide
  · rw [if_neg (by simp [h0])]
    rcases Nat.lt_or_ge (survivingTokens name).length 2 with h | h
    · rw [if_pos h, if_neg (by omega)]
    · rw [if_neg (by omega), if_pos h]

/-- The source's pattern loop equals first-match-then-trim. -/
theorem tryPatterns_eq_firstRuleMatch (ps : List RE) (s : List Char) :
    tryPatterns ps s = (firstRuleMatch ps s).map trimWS := by
  induction ps with
  | nil => rfl
  | cons p rest ih =>
    simp only [tryPatterns, firstRuleMatch]
    cases reSearch p s with
    | some g => rfl
    | none => simpa using ih

/-- No zerado pattern matches the empty text. -/
theorem firstRuleMatch_zerado_nil : firstRuleMatch ZERADO_PATTERNS [] = none := by
  decide

/-- C2.  The Name Extractor applies the primary rules in order and
returns the first match's captured group trimmed; only when none
matches are the secondary rules tried on the normalized text, and then —
only if still unmatched and raw text is present — on the
whitespace-collapsed upper-cased raw text; otherwise no-match, never an
error.  Two concrete runs illustrate a match and a no-match. -/
theorem claim_C2 :
    (∀ (tc : String) (tr : Option String), extract_name tc tr = extract_name_spec tc tr)
    ∧ extract_name "EMPREGADO: JOAO DA SILVA" none = some "JOAO DA SILVA"
    ∧ extract_name "RELATORIO MENSAL" (some "relatorio mensal") = none := by
  refine ⟨fun tc tr => ?_, by decide, by decide⟩
  unfold extract_name extract_name_spec
  rw [tryPatterns_eq_firstRuleMatch, tryPatterns_eq_firstRuleMatch]
  cases firstRuleMatch NAME_PATTERNS tc.data with
  | some g => rfl
  | none =>
    cases firstRuleMatch ZERADO_PATTERNS tc.data with
    | some g => rfl
    | none =>
      cases tr with
      | none => rfl
      | some raw =>
        by_cases h0 : raw = ""
        · subst h0
          decide
        · dsimp only [Option.map, Option.orElse, Option.bind]
          rw [if_neg (by simp [h0]), tryPatterns_eq_firstRuleMatch]
          cases h : firstRuleMatch ZERADO_PATTERNS (normRawUpper raw) with
          | none => simp [h]
          | some g => simp [h]

/-- Membership in a stable insertion. -/
theorem insertByVal_mem {a x : List Char} :
    ∀ {l : List (List Char)}, a ∈ insertByVal x l ↔ a = x ∨ a ∈ l := by
  intro l
  induction l with
  | nil => simp [insertByVal]
  | cons y rest ih =>
    by_cases h : decVal y < decVal x
    · simp only [insertByVal, if_pos h, List.mem_cons, ih]
      tauto
    · simp [insertByVal, if_neg h, List.mem_cons]

/-- Stable insertion preserves sortedness by numeric value. -/
theorem insertByVal_pairwise {x : List Char} :
    ∀ {l : List (List Char)}, l.Pairwise (fun a b => decVal a ≤ decVal b) →
      (insertByVal x l).Pairwise (fun a b => decVal a ≤ decVal b) := by
  intro l
  induction l with
  | nil => simp [insertByVal]
  | cons y rest ih =>
    intro hp
    rw [List.pairwise_cons] at hp
    by_cases h : decVal y < decVal x
    · rw [insertByVal, if_pos h, List.pairwise_cons]
      refine ⟨fun a ha => ?_, ih hp.2⟩
      rcases insertByVal_mem.mp ha with rfl | ha2
      · exact Nat.le_of_lt h
      · exact hp.1 a ha2
    · rw [insertByVal, if_neg h, List.pairwise_cons]
      refine ⟨fun a ha => ?_, by rw [List.pairwise_cons]; exact hp⟩
      rcases List.mem_cons.mp ha with rfl | ha2
      · omega
      · exact le_trans (by omega) (hp.1 a ha2)

/-- The stable sort sorts by numeric value. -/
theorem sortByVal_pairwise :
    ∀ l : List (List Char), (sortByVal l).Pairwise (fun a b => decVal a ≤ decVal b) := by
  intro l
  induction l with
  | nil => simp [sortByVal]
  | cons x rest ih => exact insertByVal_pairwise ih

/-- The stable sort preserves the members. -/
theorem sortByVal_mem {a : List Char} :
    ∀ {l : List (List Char)}, a ∈ sortByVal l ↔ a ∈ l := by
  intro l
  induction l with
  | nil => simp [sortByVal]
  | cons x rest ih =>
    simp only [sortByVal, insertByVal_mem, List.mem_cons, ih]

/-- Stable insertion of a fresh element keeps the list duplicate-free. -/
theorem insertByVal_nodup {x : List Char} :
    ∀ {l : List (List Char)}, l.Nodup → x ∉ l → (insertByVal x l).Nodup := by
  intro l
  induction l with
  | nil => intro _ _; simp [insertByVal]
  | cons y rest ih =>
    intro hn hx
    rw [List.nodup_cons] at hn
    by_cases h : decVal y < decVal x
    · rw [insertByVal, if_pos h, List.nodup_cons]
      refine ⟨fun hy => ?_, ih hn.2 (fun h2 => hx (List.mem_cons_of_mem y h2))⟩
      rcases insertByVal_mem.mp hy with rfl | hy2
      · exact hx (List.mem_cons_self y rest)
      · exact hn.1 hy2
    · rw [insertByVal, if_neg h, List.nodup_cons]
      exact ⟨fun hy => hx hy, by rw [List.nodup_cons]; exact hn⟩

/-- The stable sort preserves freedom from duplicates. -/
theorem sortByVal_nodup :
    ∀ {l : List (List Char)}, l.Nodup → (sortByVal l).Nodup := by
  intro l
  induction l with
  | nil => intro _; simp [sortByVal]
  | cons x rest ih =>
    intro hn
    rw [List.nodup_cons] at hn
    exact insertByVal_nodup (ih hn.2) (fun hmem => hn.1 (sortByVal_mem.mp hmem))

/-- One step of the set-accumulation fold keeps the list duplicate-free. -/
theorem addUnique_nodup (new : List (List Char)) :
    ∀ acc : List (List Char), acc.Nodup →
      (new.foldl (fun a c => if a.contains c then a else a ++ [c]) acc).Nodup := by
  induction new with
  | nil => intro acc h; exact h
  | cons c rest ih =>
    intro acc h
    simp only [List.foldl_cons]
    by_cases hc : acc.contains c
    · rw [if_pos hc]; exact ih acc h
    · rw [if_neg hc]
      refine ih _ ?_
      have hmem : c ∉ acc := by simpa using (Bool.not_eq_true _).mp hc
      simp [List.nodup_append, h, hmem]

/-- The accumulated code set is duplicate-free. -/
theorem extractedCodes_nodup (filenames : List String) :
    (extractedCodes filenames).Nodup := by
  unfold extractedCodes
  have main : ∀ (fns : List String) (acc : List (List Char)), acc.Nodup →
      (fns.foldl (fun acc name =>
        (codesOfName name).foldl (fun a c => if a.contains c then a else a ++ [c]) acc) acc).Nodup := by
    intro fns
    induction fns with
    | nil => intro acc h; exact h
    | cons f rest ih =>
      intro acc h
      simp only [List.foldl_cons]
      exact ih _ (addUnique_nodup (codesOfName f) acc h)
  exact main filenames [] (List.nodup_nil)

/-- C8.  The archive name is a deterministic function of the input
filenames: more than 5 inputs give the fixed generic archive name; with
at most 5 inputs and no extracted numeric code the fixed generic label
is used; otherwise the duplicate-free numeric ids are sorted by value
and joined with the separator, truncated to the bounded length.
Concrete runs show all three shapes, including the spec's
scenario of two documents sharing no numeric codes. -/
theorem claim_C8 :
    (∀ filenames : List String, 5 < filenames.length →
      generate_zip_filename filenames = "projetos_renomeados.zip")
    ∧ (∀ filenames : List String, filenames.length ≤ 5 → extractedCodes filenames = [] →
      generate_zip_filename filenames = "documentos_desmembrados.zip")
    ∧ (∀ filenames : List String, filenames.length ≤ 5 → extractedCodes filenames ≠ [] →
      generate_zip_filename filenames =
        truncatedBase (zipBase (sortByVal (extractedCodes filenames))) ++ ".zip")
    ∧ (∀ filenames : List String,
      (sortByVal (extractedCodes filenames)).Pairwise (fun a b => decVal a ≤ decVal b)
      ∧ (sortByVal (extractedCodes filenames)).Nodup)
    ∧ generate_zip_filename ["relatorio.pdf", "folha.pdf"] = "documentos_desmembrados.zip"
    ∧ generate_zip_filename ["doc-123.pdf", "doc-045.pdf"] = "045_&_123.zip"
    ∧ generate_zip_filename ["a.pdf", "b.pdf", "c.pdf", "d.pdf", "e.pdf", "f.pdf"] =
        "projetos_renomeados.zip" := by
  refine ⟨?_, ?_, ?_, ?_, by decide, by decide, by decide⟩
  · intro filenames h
    unfold generate_zip_filename
    rw [if_pos h]
  · intro filenames h h2
    unfold generate_zip_filename
    rw [if_neg (by omega), if_pos (by simp [h2])]
  · intro filenames h h2
    unfold generate_zip_filename
    rw [if_neg (by omega), if_neg (by simp [h2])]
  · intro filenames
    exact ⟨sortByVal_pairwise _, sortByVal_nodup (extractedCodes_nodup filenames)⟩

/-- Witness for C8: the hypotheses hold and the theorem applies at a
concrete two-file input carrying numeric codes. -/
theorem claim_C8_witness :
    (["doc-123.pdf", "doc-045.pdf"] : List String).length ≤ 5
    ∧ extractedCodes ["doc-123.pdf", "doc-045.pdf"] ≠ []
    ∧ generate_zip_filename ["doc-123.pdf", "doc-045.pdf"] =
        truncatedBase (zipBase (sortByVal (extractedCodes ["doc-123.pdf", "doc-045.pdf"]))) ++ ".zip" :=
  ⟨by decide, by decide, claim_C8.2.2.1 ["doc-123.pdf", "doc-045.pdf"] (by decide) (by decide)⟩

/-- Counterexample to C7 as stated: when the optimised write raises, the
fallback write still passes `deflate=True` (server.py:166); its output
differs from the uncompressed default `write()` the claim describes.
The serializer records the deflate flag in the produced bytes. -/
theorem claim_C7_counterexample :
    pageWriteBytes serLinFail true 0 = some [1]
    ∧ pageWriteBytesClaim serLinFail true 0 = some [0]
    ∧ pageWriteBytes serLinFail true 0 ≠ pageWriteBytesClaim serLinFail true 0 := by
  decide

/-- C7 (amended).  With compression requested, the splitter attempts the
optimised serialization and, if that write raises, falls back for that
page only to a still-compressed but non-linearised serialization (same
garbage-collection, deflate and clean options, without linearisation);
when the fallback succeeds the page is still produced and `page_done`
emitted, with no error surfaced. -/
theorem claim_C7_amended :
    (∀ (w : Nat → WriteOpts → Option (List Nat)) (i : Nat),
      w i linearOpts = none → pageWriteBytes w true i = w i fallbackOpts)
    ∧ (∀ (w : Nat → WriteOpts → Option (List Nat)) (i : Nat) (b : List Nat),
      w i linearOpts = some b → pageWriteBytes w true i = some b)
    ∧ fallbackOpts.deflate = true ∧ fallbackOpts.linear = false
    ∧ (∀ (w : Nat → WriteOpts → Option (List Nat)) (base : String) (i : Nat)
        (raw : String) (st : PState) (bs : List Nat),
      w i linearOpts = none → w i fallbackOpts = some bs →
      ∃ st2, processPage w true false base i raw st = Except.ok st2
        ∧ st2.evs = st.evs ++ [Ev.page_done base (i + 1) (pageName base i raw).1]) := by
  refine ⟨?_, ?_, rfl, rfl, ?_⟩
  · intro w i h
    simp [pageWriteBytes, h]
  · intro w i b h
    simp [pageWriteBytes, h]
  · intro w base i raw st bs h1 h2
    have hb : pageWriteBytes w true i = some bs := by simp [pageWriteBytes, h1, h2]
    simp only [processPage, hb]
    exact ⟨_, rfl, rfl⟩

/-- Witness for the amended C7: the serializer whose linearised write
raises; the fallback succeeds and the page is produced. -/
theorem claim_C7_amended_witness :
    serLinFail 0 linearOpts = none
    ∧ pageWriteBytes serLinFail true 0 = serLinFail 0 fallbackOpts :=
  ⟨by decide, claim_C7_amended.1 serLinFail 0 (by decide)⟩

/-- Emitting with no observer ever attached accumulates the events in
the replay buffer, in order. -/
theorem wsRun_emits_buffered :
    ∀ (es : List Ev) (s : WSState), s.obs = [] → ∀ buf, s.buffer = some buf →
      wsRun s (es.map WStep.emit) = { s with buffer := some (buf ++ es) } := by
  intro es
  induction es with
  | nil =>
    intro s hobs buf hbuf
    show s = { s with buffer := some (buf ++ []) }
    rw [List.append_nil, ← hbuf]
  | cons e rest ih =>
    intro s hobs buf hbuf
    show wsRun (wsStep s (WStep.emit e)) (rest.map WStep.emit) = _
    have hstep : wsStep s (WStep.emit e) = { s with buffer := some (buf ++ [e]) } := by
      simp [wsStep, wsEmit, hobs, hbuf]
    rw [hstep, ih _ (by simp [hobs]) (buf ++ [e]) rfl]
    simp

/-- A step never resurrects a retired buffer. -/
theorem wsStep_buffer_none {s : WSState} (h : s.buffer = none) (st : WStep) :
    (wsStep s st).buffer = none := by
  cases st with
  | emit e =>
    by_cases ho : s.obs.isEmpty
    · simp [wsStep, wsEmit, ho, h]
    · simpa [wsStep, wsEmit, ho] using h
  | attach o => rfl
  | detach o => exact h

/-- C3.  An observer attaching after `N` events were emitted with no
prior observer receives the hello payload, then the initialization
metadata when available, then exactly those `N` buffered events in
emission order, exactly once; the buffer is then permanently retired,
and an observer attaching after retirement receives no buffered events
at its attach. -/
theorem claim_C3 :
    (∀ (hasMeta : Bool) (es : List Ev),
      (wsRun (wsInit hasMeta) (es.map WStep.emit)).buffer = some es
      ∧ (wsRun (wsInit hasMeta) (es.map WStep.emit)).obs = [])
    ∧ (∀ (hasMeta : Bool) (es : List Ev) (o : Nat),
      (wsStep (wsRun (wsInit hasMeta) (es.map WStep.emit)) (WStep.attach o)).recv o =
        [Msg.hello] ++ (if hasMeta then [Msg.init] else []) ++ es.map Msg.ev
      ∧ (wsStep (wsRun (wsInit hasMeta) (es.map WStep.emit)) (WStep.attach o)).buffer = none)
    ∧ (∀ (s : WSState) (ss : List WStep), s.buffer = none → (wsRun s ss).buffer = none)
    ∧ (∀ (s : WSState) (o2 : Nat), s.buffer = none →
      (wsStep s (WStep.attach o2)).recv o2 =
        s.recv o2 ++ ([Msg.hello] ++ (if s.hasMeta then [Msg.init] else []))) := by
  have hrun : ∀ (hasMeta : Bool) (es : List Ev),
      wsRun (wsInit hasMeta) (es.map WStep.emit) = { wsInit hasMeta with buffer := some es } := by
    intro hasMeta es
    rw [wsRun_emits_buffered es (wsInit hasMeta) rfl [] rfl]
    simp
  refine ⟨?_, ?_, ?_, ?_⟩
  · intro hasMeta es
    rw [hrun]
    exact ⟨rfl, rfl⟩
  · intro hasMeta es o
    rw [hrun]
    constructor
    · simp [wsStep, wsAttach, wsInit]
    · rfl
  · intro s ss h
    induction ss generalizing s with
    | nil => exact h
    | cons st rest ih => exact ih _ (wsStep_buffer_none h st)
  · intro s o2 h
    simp [wsStep, wsAttach, h]

/-- Witness for C3: the retirement hypotheses discharged at the concrete
retired state. -/
theorem claim_C3_witness :
    wsRetiredEx.buffer = none
    ∧ (wsRun wsRetiredEx [WStep.emit (Ev.error "x")]).buffer = none :=
  ⟨rfl, claim_C3.2.2.1 wsRetiredEx [WStep.emit (Ev.error "x")] rfl⟩

/-- C10.  Once the buffer is retired, an event emitted while no observer
is attached leaves the state unchanged — it is neither re-buffered nor
delivered to anyone, now or by any later sequence of steps. -/
theorem claim_C10 :
    ∀ (s : WSState) (e : Ev), s.buffer = none → s.obs = [] →
      wsStep s (WStep.emit e) = s
      ∧ ∀ (ss : List WStep) (o : Nat),
          (wsRun (wsStep s (WStep.emit e)) ss).recv o = (wsRun s ss).recv o := by
  intro s e hbuf hobs
  have h1 : wsStep s (WStep.emit e) = s := by
    simp [wsStep, wsEmit, hobs, hbuf]
  exact ⟨h1, fun ss o => by rw [h1]⟩

/-- Witness for C10: a dropped emit at the concrete retired state. -/
theorem claim_C10_witness :
    wsStep wsRetiredEx (WStep.emit (Ev.error "y")) = wsRetiredEx :=
  (claim_C10 wsRetiredEx (Ev.error "y") rfl rfl).1

/-- The decimal digit character evaluates back to its digit. -/
theorem digitChar_toNat {d : Nat} (hd : d < 10) : (digitChar d).toNat = 48 + d := by
  interval_cases d <;> decide

/-- `fromDigitsRev` inverts `toDigitsRevAux` whenever the fuel covers
the value. -/
theorem fromDigitsRev_toDigitsRevAux :
    ∀ (fuel n : Nat), n ≤ fuel → fromDigitsRev (toDigitsRevAux fuel n) = n := by
  intro fuel
  induction fuel with
  | zero =>
    intro n hn
    interval_cases n
    rfl
  | succ fuel ih =>
    intro n hn
    cases n with
    | zero => rfl
    | succ m =>
      show fromDigitsRev (digitChar ((m + 1) % 10) :: toDigitsRevAux fuel ((m + 1) / 10)) = m + 1
      rw [fromDigitsRev, ih ((m + 1) / 10) (by omega),
        digitChar_toNat (Nat.mod_lt _ (by omega))]
      omega

/-- `fromDigitsRev` inverts `toDigitsRev`. -/
theorem fromDigitsRev_toDigitsRev (n : Nat) : fromDigitsRev (toDigitsRev n) = n :=
  fromDigitsRev_toDigitsRevAux n n (Nat.le_refl n)

/-- `decodeDec` inverts `natToDec`. -/
theorem decodeDec_natToDec (n : Nat) : decodeDec (natToDec n) = n := by
  by_cases hn : n = 0
  · subst hn
    decide
  · unfold natToDec decodeDec
    rw [if_neg (by simpa using hn)]
    show fromDigitsRev (toDigitsRev n).reverse.reverse = n
    rw [List.reverse_reverse]
    exact fromDigitsRev_toDigitsRev n

/-- The decimal rendering of naturals is injective. -/
theorem natToDec_injective : Function.Injective natToDec := by
  intro m n h
  rw [← decodeDec_natToDec m, ← decodeDec_natToDec n, h]

/-- Candidate collision names for one stem are pairwise distinct. -/
theorem candName_injective (final : String) : Function.Injective (candName final) := by
  intro j k h
  unfold candName at h
  by_cases hj : j = 0 <;> by_cases hk : k = 0
  · omega
  · rw [if_pos hj, if_neg hk] at h
    have hd := congrArg String.data h
    simp only [String.data_append, List.append_assoc] at hd
    have h2 := List.append_cancel_left hd
    rw [List.singleton_append] at h2
    simp at h2
  · rw [if_neg hj, if_pos hk] at h
    have hd := congrArg String.data h
    simp only [String.data_append, List.append_assoc] at hd
    have h2 := List.append_cancel_left hd
    rw [List.singleton_append] at h2
    simp at h2
  · rw [if_neg hj, if_neg hk] at h
    have hd := congrArg String.data h
    simp only [String.data_append, List.append_assoc] at hd
    have h2 := List.append_cancel_left (List.append_cancel_left hd)
    have h3 := List.append_cancel_right h2
    have h5 : natToDec j = natToDec k := by
      have hj2 : natToDec j = (⟨(natToDec j).data⟩ : String) := rfl
      have hk2 : natToDec k = (⟨(natToDec k).data⟩ : String) := rfl
      rw [hj2, hk2, h3]
    exact natToDec_injective h5

/-- The collision loop never picks a name already present: among
`fs.length + 1` pairwise-distinct candidates at least one is free, and
`find?` returns a free one. -/
theorem resolveOutName_not_mem (fs : List String) (final : String) :
    resolveOutName fs final ∉ fs := by
  unfold resolveOutName
  cases hf : (List.range (fs.length + 1)).find? (fun k => !(fs.contains (candName final k))) with
  | some k =>
    have hp := List.find?_some hf
    simp only [Bool.not_eq_eq_eq_not, Bool.not_true] at hp
    simpa using hp
  | none =>
    exfalso
    have hall := List.find?_eq_none.mp hf
    have hsub : ((List.range (fs.length + 1)).map (candName final)) ⊆ fs := by
      intro a ha
      rcases List.mem_map.mp ha with ⟨k, hk, rfl⟩
      have := hall k hk
      simpa using this
    have hnd : ((List.range (fs.length + 1)).map (candName final)).Nodup :=
      List.Nodup.map (candName_injective final) (List.nodup_range _)
    have hlen : ((List.range (fs.length + 1)).map (candName final)).length = fs.length + 1 := by
      simp
    have hcard1 : ((List.range (fs.length + 1)).map (candName final)).toFinset.card = fs.length + 1 := by
      rw [List.toFinset_card_of_nodup hnd, hlen]
    have hcard2 : ((List.range (fs.length + 1)).map (candName final)).toFinset ⊆ fs.toFinset := by
      intro a ha
      exact List.mem_toFinset.mpr (hsub (List.mem_toFinset.mp ha))
    have := Finset.card_le_card hcard2
    have := List.toFinset_card_le fs
    omega

/-- One page written in a non-metric run extends the directory contents
by the resolved name; the directory stays duplicate-free. -/
theorem processPage_fs_nodup {w : Nat → WriteOpts → Option (List Nat)} {c m : Bool}
    {base : String} {i : Nat} {raw : String} {st st2 : PState}
    (hn : st.fs.Nodup) (h : processPage w c m base i raw st = Except.ok st2) :
    st2.fs.Nodup := by
  unfold processPage at h
  cases m with
  | true =>
    simp only [if_pos rfl] at h
    cases h
    exact hn
  | false =>
    simp only [Bool.false_eq_true, if_neg] at h
    cases hw : pageWriteBytes w c i with
    | none => rw [hw] at h; cases h
    | some b =>
      rw [hw] at h
      cases h
      simp [List.nodup_append, hn, resolveOutName_not_mem]

/-- The page loop keeps the output directory duplicate-free. -/
theorem processPagesLoop_fs_nodup {w : Nat → WriteOpts → Option (List Nat)} {c m : Bool}
    {cancel : Nat → Bool} {base : String} :
    ∀ (pages : List String) (i : Nat) (st st2 : PState), st.fs.Nodup →
      processPagesLoop w c m cancel base pages i st = Except.ok st2 → st2.fs.Nodup := by
  intro pages
  induction pages with
  | nil =>
    intro i st st2 hn h
    cases h
    exact hn
  | cons raw rest ih =>
    intro i st st2 hn h
    rw [processPagesLoop] at h
    by_cases hc : cancel st.ctr
    · rw [if_pos hc] at h
      cases h
      exact hn
    · rw [if_neg hc] at h
      cases hp : processPage w c m base i raw { st with ctr := st.ctr + 1 } with
      | error evs => rw [hp] at h; cases h
      | ok stm =>
        rw [hp] at h
        exact ih _ _ _ (@processPage_fs_nodup w c m base i raw { st with ctr := st.ctr + 1 } stm hn hp) h

/-- C6.  The collision loop never overwrites: the resolved name is never
one already present, so the directory contents stay pairwise distinct
across the page loop; a second page with the same stem gets a different
name; the suffix increments as `S.pdf`, `S_1.pdf`, `S_2.pdf`. -/
theorem claim_C6 :
    (∀ (fs : List String) (final : String), resolveOutName fs final ∉ fs)
    ∧ (∀ (fs : List String) (final : String), fs.Nodup →
        (fs ++ [resolveOutName fs final]).Nodup)
    ∧ (∀ (fs : List String) (final : String),
        resolveOutName (fs ++ [resolveOutName fs final]) final ≠ resolveOutName fs final)
    ∧ (∀ (w : Nat → WriteOpts → Option (List Nat)) (c m : Bool) (cancel : Nat → Bool)
        (base : String) (pages : List String) (i : Nat) (st st2 : PState), st.fs.Nodup →
        processPagesLoop w c m cancel base pages i st = Except.ok st2 → st2.fs.Nodup)
    ∧ resolveOutName [] "S" = "S.pdf"
    ∧ resolveOutName ["S.pdf"] "S" = "S_1.pdf"
    ∧ resolveOutName ["S.pdf", "S_1.pdf"] "S" = "S_2.pdf" := by
  refine ⟨resolveOutName_not_mem, ?_, ?_, ?_, by decide, by decide, by decide⟩
  · intro fs final hn
    simp [List.nodup_append, hn, resolveOutName_not_mem]
  · intro fs final h
    have := resolveOutName_not_mem (fs ++ [resolveOutName fs final]) final
    rw [h] at this
    exact this (by simp)
  · intro w c m cancel base pages i st st2 hn h
    exact processPagesLoop_fs_nodup pages i st st2 hn h

/-- Witness for C6: the duplicate-free and loop hypotheses discharged on
a concrete one-file directory and a concrete one-page run. -/
theorem claim_C6_witness :
    (["S.pdf"] : List String).Nodup
    ∧ (["S.pdf"] ++ [resolveOutName ["S.pdf"] "S"]).Nodup :=
  ⟨by decide, claim_C6.2.1 ["S.pdf"] "S" (by decide)⟩

/-- A tail of an adjacency-free list is adjacency-free. -/
theorem noAdjWS_tail {c : Char} {l : List Char} (h : noAdjWS (c :: l) = true) :
    noAdjWS l = true := by
  cases l with
  | nil => rfl
  | cons x r =>
    rw [noAdjWS, Bool.and_eq_true] at h
    exact h.2

/-- Prepending a non-whitespace character preserves adjacency-freedom. -/
theorem noAdjWS_cons_nonws {c : Char} {l : List Char} (hc : isWS c = false) :
    noAdjWS (c :: l) = noAdjWS l := by
  cases l with
  | nil => rfl
  | cons x r => simp [noAdjWS, hc]

/-- Prepending whitespace before a non-whitespace head preserves
adjacency-freedom. -/
theorem noAdjWS_cons_ws {c : Char} {l : List Char} (hc : isWS c = true)
    (hh : headNonWS l = true) : noAdjWS (c :: l) = noAdjWS l := by
  cases l with
  | nil => rfl
  | cons x r =>
    have hx : isWS x = false := by simpa [headNonWS] using hh
    simp [noAdjWS, hc, hx]

/-- Characters of a collapsed list come from the input or are spaces. -/
theorem collapseWS_mem :
    ∀ (l : List Char) (b : Bool) (c : Char), c ∈ collapseWS b l → c ∈ l ∨ c = ' ' := by
  intro l
  induction l with
  | nil => intro b c hc; simp [collapseWS] at hc
  | cons x rest ih =>
    intro b c hc
    by_cases hx : isWS x
    · rw [collapseWS, if_pos hx] at hc
      cases b with
      | true =>
        rcases ih true c hc with h | h
        · exact Or.inl (List.mem_cons_of_mem _ h)
        · exact Or.inr h
      | false =>
        rcases List.mem_cons.mp hc with rfl | hc2
        · exact Or.inr rfl
        · rcases ih true c hc2 with h | h
          · exact Or.inl (List.mem_cons_of_mem _ h)
          · exact Or.inr h
    · rw [collapseWS, if_neg hx] at hc
      rcases List.mem_cons.mp hc with rfl | hc2
      · exact Or.inl (List.mem_cons_self _ _)
      · rcases ih false c hc2 with h | h
        · exact Or.inl (List.mem_cons_of_mem _ h)
        · exact Or.inr h

/-- Every whitespace character a collapse outputs is a plain space. -/
theorem collapseWS_allWsSpace :
    ∀ (l : List Char) (b : Bool) (c : Char),
      c ∈ collapseWS b l → isWS c = true → c = ' ' := by
  intro l
  induction l with
  | nil => intro b c hc _; simp [collapseWS] at hc
  | cons x rest ih =>
    intro b c hc hw
    by_cases hx : isWS x
    · rw [collapseWS, if_pos hx] at hc
      cases b with
      | true => exact ih true c hc hw
      | false =>
        rcases List.mem_cons.mp hc with rfl | hc2
        · rfl
        · exact ih true c hc2 hw
    · rw [collapseWS, if_neg hx] at hc
      rcases List.mem_cons.mp hc with rfl | hc2
      · exact absurd hw hx
      · exact ih false c hc2 hw

/-- A collapse begun inside a run starts with a non-whitespace
character. -/
theorem collapseWS_true_head : ∀ l : List Char, headNonWS (collapseWS true l) = true := by
  intro l
  induction l with
  | nil => rfl
  | cons x rest ih =>
    by_cases hx : isWS x
    · rw [collapseWS, if_pos hx]
      exact ih
    · rw [collapseWS, if_neg hx, headNonWS]
      simpa using hx

/-- A collapsed list has no two adjacent whitespace characters. -/
theorem collapseWS_noAdj : ∀ (l : List Char) (b : Bool), noAdjWS (collapseWS b l) = true := by
  intro l
  induction l with
  | nil => intro b; rfl
  | cons x rest ih =>
    intro b
    by_cases hx : isWS x
    · cases b with
      | true =>
        rw [collapseWS, if_pos hx]
        exact ih true
      | false =>
        rw [collapseWS, if_pos hx]
        show noAdjWS (' ' :: collapseWS true rest) = true
        rw [noAdjWS_cons_ws (by decide) (collapseWS_true_head rest)]
        exact ih true
    · rw [collapseWS, if_neg hx]
      rw [noAdjWS_cons_nonws (by simpa using hx)]
      exact ih false

/-- Characters of a right-trim come from the input. -/
theorem rtrimWS_mem : ∀ {l : List Char} {c : Char}, c ∈ rtrimWS l → c ∈ l := by
  intro l
  induction l with
  | nil => intro c hc; simp [rtrimWS] at hc
  | cons x rest ih =>
    intro c hc
    rw [rtrimWS] at hc
    by_cases hcond : (rtrimWS rest).isEmpty && isWS x
    · rw [if_pos hcond] at hc
      cases hc
    · rw [if_neg hcond] at hc
      rcases List.mem_cons.mp hc with rfl | hc2
      · exact List.mem_cons_self _ _
      · exact List.mem_cons_of_mem _ (ih hc2)

/-- A cons surviving the right-trim keeps its head. -/
theorem rtrimWS_head {l : List Char} {y : Char} {t : List Char}
    (h : rtrimWS l = y :: t) : ∃ r2, l = y :: r2 := by
  cases l with
  | nil => cases h
  | cons c r2 =>
    rw [rtrimWS] at h
    by_cases hcond : (rtrimWS r2).isEmpty && isWS c
    · rw [if_pos hcond] at h
      cases h
    · rw [if_neg hcond] at h
      cases h
      exact ⟨r2, rfl⟩

/-- The right-trim preserves adjacency-freedom. -/
theorem rtrimWS_noAdj : ∀ {l : List Char}, noAdjWS l = true → noAdjWS (rtrimWS l) = true := by
  intro l
  induction l with
  | nil => intro h; exact h
  | cons x rest ih =>
    intro h
    rw [rtrimWS]
    by_cases hcond : (rtrimWS rest).isEmpty && isWS x
    · rw [if_pos hcond]
      rfl
    · rw [if_neg hcond]
      have ihr := ih (noAdjWS_tail h)
      cases hr : rtrimWS rest with
      | nil => rfl
      | cons y t =>
        rcases rtrimWS_head hr with ⟨r2, rfl⟩
        rw [hr] at ihr
        rw [noAdjWS, Bool.and_eq_true] at h ⊢
        exact ⟨h.1, ihr⟩

/-- The right-trim ends in a non-whitespace character. -/
theorem rtrimWS_lastNonWS : ∀ l : List Char, lastNonWS (rtrimWS l) = true := by
  intro l
  induction l with
  | nil => rfl
  | cons x rest ih =>
    rw [rtrimWS]
    by_cases hcond : (rtrimWS rest).isEmpty && isWS x
    · rw [if_pos hcond]
      rfl
    · rw [if_neg hcond]
      cases hr : rtrimWS rest with
      | nil =>
        have hx : isWS x = false := by
          rw [hr] at hcond
          simpa using hcond
        simp [lastNonWS, hx]
      | cons y t =>
        rw [hr] at ih
        simp only [lastNonWS]
        exact ih

/-- The right-trim preserves a non-whitespace head. -/
theorem rtrimWS_headNonWS {l : List Char} (h : headNonWS l = true) :
    headNonWS (rtrimWS l) = true := by
  cases l with
  | nil => rfl
  | cons x rest =>
    rw [rtrimWS]
    by_cases hcond : (rtrimWS rest).isEmpty && isWS x
    · rw [if_pos hcond]
      rfl
    · rw [if_neg hcond]
      exact h

/-- Dropping leading whitespace leaves a non-whitespace head. -/
theorem dropWhile_headNonWS : ∀ l : List Char, headNonWS (l.dropWhile isWS) = true := by
  intro l
  induction l with
  | nil => rfl
  | cons x rest ih =>
    rw [List.dropWhile_cons]
    by_cases hx : isWS x
    · rw [if_pos hx]
      exact ih
    · rw [if_neg hx, headNonWS]
      simpa using hx

/-- Dropping leading whitespace preserves adjacency-freedom. -/
theorem dropWhile_noAdj : ∀ {l : List Char}, noAdjWS l = true →
    noAdjWS (l.dropWhile isWS) = true := by
  intro l
  induction l with
  | nil => intro h; exact h
  | cons x rest ih =>
    intro h
    rw [List.dropWhile_cons]
    by_cases hx : isWS x
    · rw [if_pos hx]
      exact ih (noAdjWS_tail h)
    · rw [if_neg hx]
      exact h

/-- Dropping leading whitespace is the identity on a non-whitespace
head. -/
theorem dropWhile_id {l : List Char} (h : headNonWS l = true) : l.dropWhile isWS = l := by
  cases l with
  | nil => rfl
  | cons x rest =>
    have hx : isWS x = false := by simpa [headNonWS] using h
    rw [List.dropWhile_cons, if_neg (by simp [hx])]

/-- The right-trim is the identity when the last character is not
whitespace. -/
theorem rtrimWS_id : ∀ {l : List Char}, lastNonWS l = true → rtrimWS l = l := by
  intro l
  induction l with
  | nil => intro _; rfl
  | cons x rest ih =>
    intro h
    cases rest with
    | nil =>
      have hx : isWS x = false := by simpa [lastNonWS] using h
      simp [rtrimWS, hx]
    | cons y t =>
      have hlast : lastNonWS (y :: t) = true := by simpa [lastNonWS] using h
      have ihr : rtrimWS (y :: t) = y :: t := ih hlast
      rw [rtrimWS, ihr]
      simp

/-- Collapsing is the identity on a normalised list: all whitespace is
single spaces, none adjacent, and (when starting inside a run) the head
is not whitespace. -/
theorem collapseWS_id : ∀ (l : List Char) (b : Bool),
    (∀ c ∈ l, isWS c = true → c = ' ') → noAdjWS l = true →
    (b = true → headNonWS l = true) → collapseWS b l = l := by
  intro l
  induction l with
  | nil => intro b _ _ _; rfl
  | cons x rest ih =>
    intro b hall hadj hhead
    by_cases hx : isWS x
    · have hxs : x = ' ' := hall x (List.mem_cons_self x rest) hx
      have hb : b = false := by
        cases b with
        | false => rfl
        | true =>
          have hh := hhead rfl
          rw [headNonWS] at hh
          rw [hx] at hh
          cases hh
      subst hb
      rw [collapseWS, if_pos hx]
      have htail : collapseWS true rest = rest := by
        apply ih true
        · intro c hc hw
          exact hall c (List.mem_cons_of_mem _ hc) hw
        · exact noAdjWS_tail hadj
        · intro _
          cases rest with
          | nil => rfl
          | cons y t =>
            rw [noAdjWS, Bool.and_eq_true] at hadj
            have h1 := hadj.1
            rw [headNonWS]
            rw [hx] at h1
            simpa using h1
      show ' ' :: collapseWS true rest = x :: rest
      rw [htail, hxs]
    · rw [collapseWS, if_neg hx]
      have htail : collapseWS false rest = rest := by
        apply ih false
        · intro c hc hw
          exact hall c (List.mem_cons_of_mem _ hc) hw
        · exact noAdjWS_tail hadj
        · intro hfalse
          cases hfalse
      rw [htail]

/-- Replacement output carries no illegal character. -/
theorem replaceIllegal_out : ∀ (l : List Char) (c : Char),
    c ∈ replaceIllegal l → isIllegalCh c = false := by
  intro l c hc
  rcases List.mem_map.mp hc with ⟨a, _, rfl⟩
  by_cases ha : isIllegalCh a
  · rw [if_pos ha]
    decide
  · rw [if_neg ha]
    simpa using ha

/-- Replacement is the identity when no character is illegal. -/
theorem replaceIllegal_id : ∀ (l : List Char),
    (∀ c ∈ l, isIllegalCh c = false) → replaceIllegal l = l := by
  intro l
  induction l with
  | nil => intro _; rfl
  | cons x rest ih =>
    intro h
    show (if isIllegalCh x then ' ' else x) :: replaceIllegal rest = x :: rest
    rw [if_neg (by simp [h x (List.mem_cons_self x rest)])]
    rw [ih (fun c hc => h c (List.mem_cons_of_mem _ hc))]

/-- The sanitizer core output is normalised: no illegal characters, all
whitespace is single non-adjacent spaces, and no leading or trailing
whitespace. -/
theorem sanitizedCore_props (s : String) :
    (∀ c ∈ sanitizedCore s, isIllegalCh c = false)
    ∧ (∀ c ∈ sanitizedCore s, isWS c = true → c = ' ')
    ∧ noAdjWS (sanitizedCore s) = true
    ∧ headNonWS (sanitizedCore s) = true
    ∧ lastNonWS (sanitizedCore s) = true := by
  unfold sanitizedCore trimWS
  refine ⟨?_, ?_, ?_, ?_, ?_⟩
  · intro c hc
    have h1 := rtrimWS_mem hc
    have h2 := (List.dropWhile_suffix isWS).sublist.mem h1
    rcases collapseWS_mem _ false c h2 with h3 | h3
    · exact replaceIllegal_out _ c h3
    · rw [h3]
      decide
  · intro c hc hw
    have h1 := rtrimWS_mem hc
    have h2 := (List.dropWhile_suffix isWS).sublist.mem h1
    exact collapseWS_allWsSpace _ false c h2 hw
  · exact rtrimWS_noAdj (dropWhile_noAdj (collapseWS_noAdj _ false))
  · exact rtrimWS_headNonWS (dropWhile_headNonWS _)
  · exact rtrimWS_lastNonWS _

/-- The sanitizer core is a projection: it fixes its own output. -/
theorem sanitizedCore_fixed (s : String) :
    sanitizedCore (⟨sanitizedCore s⟩ : String) = sanitizedCore s := by
  obtain ⟨hIll, hWs, hAdj, hHead, hLast⟩ := sanitizedCore_props s
  show trimWS (collapseWS false (replaceIllegal (sanitizedCore s))) = sanitizedCore s
  rw [replaceIllegal_id _ hIll,
    collapseWS_id _ false hWs hAdj (fun hb => absurd hb Bool.false_ne_true)]
  unfold trimWS
  rw [dropWhile_id hHead, rtrimWS_id hLast]

/-- C9.  The Filename Sanitizer is idempotent and total: applying it
twice equals applying it once, and its output is never the empty
string. -/
theorem claim_C9 : ∀ s : String,
    sanitize_filename (sanitize_filename s) = sanitize_filename s
    ∧ sanitize_filename s ≠ "" := by
  intro s
  by_cases he : (sanitizedCore s).isEmpty
  · have h1 : sanitize_filename s = "ARQUIVO" := by
      rw [sanitize_filename, if_pos he]
    rw [h1]
    exact ⟨by decide, by decide⟩
  · have h1 : sanitize_filename s = ⟨sanitizedCore s⟩ := by
      rw [sanitize_filename, if_neg he]
    rw [h1]
    constructor
    · rw [sanitize_filename, sanitizedCore_fixed s, if_neg he]
    · intro hcontra
      have hdata : sanitizedCore s = [] := congrArg String.data hcontra
      exact he (by rw [hdata]; rfl)

/-- Witness for C9: the idempotence and non-emptiness at a concrete
input containing illegal characters and whitespace runs. -/
theorem claim_C9_witness :
    sanitize_filename (sanitize_filename "a\\b//c  : d  ") =
      sanitize_filename "a\\b//c  : d  "
    ∧ sanitize_filename "a\\b//c  : d  " ≠ "" :=
  claim_C9 "a\\b//c  : d  "

/-- `page_done` counting distributes over concatenation. -/
theorem countPD_append (a b : List Ev) : countPD (a ++ b) = countPD a + countPD b :=
  List.countP_append _ _ _

/-- One processed page adds one to `renamed + manual` and emits exactly
one `page_done`; the counters never decrease and the checkpoint counter
is untouched. -/
theorem processPage_step {w : Nat → WriteOpts → Option (List Nat)} {c m : Bool}
    {base raw : String} {i : Nat} {st st2 : PState}
    (h : processPage w c m base i raw st = Except.ok st2) :
    st2.stats.renamed + st2.stats.manual = st.stats.renamed + st.stats.manual + 1
    ∧ countPD st2.evs = countPD st.evs + 1
    ∧ st.stats.renamed ≤ st2.stats.renamed ∧ st.stats.manual ≤ st2.stats.manual
    ∧ st2.ctr = st.ctr ∧ st2.stats.file = st.stats.file ∧ st2.stats.pages = st.stats.pages := by
  unfold processPage at h
  cases m with
  | true =>
    rw [if_pos rfl] at h
    cases h
    by_cases hfb : (pageName base i raw).2 = true <;>
      simp [hfb, countPD_append, countPD] <;> omega
  | false =>
    simp only [Bool.false_eq_true, if_neg] at h
    cases hw : pageWriteBytes w c i with
    | none =>
      rw [hw] at h
      cases h
    | some b =>
      rw [hw] at h
      cases h
      by_cases hfb : (pageName base i raw).2 = true <;>
        simp [hfb, countPD_append, countPD] <;> omega

/-- Invariant of the page loop: the growth of `renamed + manual` equals
the number of new `page_done` events, and both counters are monotone. -/
theorem processPagesLoop_inv {w : Nat → WriteOpts → Option (List Nat)} {c m : Bool}
    {cancel : Nat → Bool} {base : String} :
    ∀ (pages : List String) (i : Nat) (st st2 : PState),
      processPagesLoop w c m cancel base pages i st = Except.ok st2 →
      st2.stats.renamed + st2.stats.manual + countPD st.evs
        = st.stats.renamed + st.stats.manual + countPD st2.evs
      ∧ st.stats.renamed ≤ st2.stats.renamed ∧ st.stats.manual ≤ st2.stats.manual
      ∧ st2.stats.file = st.stats.file ∧ st2.stats.pages = st.stats.pages := by
  intro pages
  induction pages with
  | nil =>
    intro i st st2 h
    cases h
    exact ⟨by omega, le_refl _, le_refl _, rfl, rfl⟩
  | cons raw rest ih =>
    intro i st st2 h
    rw [processPagesLoop] at h
    by_cases hc : cancel st.ctr
    · rw [if_pos hc] at h
      cases h
      exact ⟨by simp, by simp, by simp, rfl, rfl⟩
    · rw [if_neg hc] at h
      cases hp : processPage w c m base i raw { st with ctr := st.ctr + 1 } with
      | error e =>
        rw [hp] at h
        cases h
      | ok stm =>
        rw [hp] at h
        have hps := processPage_step hp
        have hih := ih (i + 1) stm st2 h
        dsimp only at hps
        refine ⟨by omega, by omega, by omega, ?_, ?_⟩
        · rw [hih.2.2.2.1, hps.2.2.2.2.2.1]
        · rw [hih.2.2.2.2, hps.2.2.2.2.2.2]

/-- Invariant of one document: starting from fresh statistics, the final
`renamed + manual` is exactly the number of `page_done` events the
document added. -/
theorem process_pdf_inv {w : Nat → WriteOpts → Option (List Nat)} {c m : Bool}
    {cancel : Nat → Bool} {base : String} {pages : List String} {st0 st2 : PState}
    (h : process_pdf_to_folder w c m cancel base pages st0 = Except.ok st2) :
    st2.stats.renamed + st2.stats.manual + countPD st0.evs = countPD st2.evs := by
  unfold process_pdf_to_folder at h
  have hinv := (processPagesLoop_inv pages 0 _ _ h).1
  dsimp only at hinv
  rw [countPD_append] at hinv
  have hfs : countPD [Ev.file_start base pages.length] = 0 := rfl
  omega

/-- Invariant of the file loop: the growth of the job totals equals the
number of new `page_done` events. -/
theorem normalLoop_inv {w : Nat → WriteOpts → Option (List Nat)} {c : Bool}
    {cancel : Nat → Bool} :
    ∀ (files : List (String × List String)) (t t2 : TState),
      normalLoop w c cancel files t = Except.ok t2 →
      t2.totals.renamed + t2.totals.manual + countPD t.evs
        = t.totals.renamed + t.totals.manual + countPD t2.evs := by
  intro files
  induction files with
  | nil =>
    intro t t2 h
    cases h
    omega
  | cons f rest ih =>
    intro t t2 h
    cases f with
    | mk fname pages =>
      rw [normalLoop] at h
      by_cases hc : cancel t.ctr
      · rw [if_pos hc] at h
        cases h
        simp
      · rw [if_neg hc] at h
        cases hpdf : process_pdf_to_folder w c false cancel (⟨splitextStem fname.data⟩ : String)
            pages ⟨⟨0, 0, [], "", 0⟩, t.evs, [], t.ctr + 1⟩ with
        | error e =>
          rw [hpdf] at h
          cases h
        | ok st =>
          rw [hpdf] at h
          have hdoc := process_pdf_inv hpdf
          dsimp only at hdoc h
          by_cases hc2 : cancel st.ctr
          · rw [if_pos hc2] at h
            cases h
            dsimp only
            simp only [addFileStats]
            omega
          · rw [if_neg hc2] at h
            have hih := ih _ _ h
            dsimp only at hih
            simp only [addFileStats] at hih
            omega

/-- C4.  Along the page loop, `renamed + manual` grows by exactly the
number of `page_done` events emitted, and both counters are monotone;
consequently a job ending in `finished` or `cancelled` carries a summary
with `renamed + manual` equal to the total number of `page_done` events
emitted for the job. -/
theorem claim_C4 :
    (∀ (w : Nat → WriteOpts → Option (List Nat)) (c m : Bool) (cancel : Nat → Bool)
      (base : String) (pages : List String) (i : Nat) (st st2 : PState),
      processPagesLoop w c m cancel base pages i st = Except.ok st2 →
      st2.stats.renamed + st2.stats.manual + countPD st.evs
        = st.stats.renamed + st.stats.manual + countPD st2.evs
      ∧ st.stats.renamed ≤ st2.stats.renamed ∧ st.stats.manual ≤ st2.stats.manual)
    ∧ (∀ (w : Nat → WriteOpts → Option (List Nat)) (c : Bool) (cancel : Nat → Bool)
      (files : List (String × List String)) (urls : List String) (sum : TotalStats),
      (process_normal_job w c cancel files).getLast? = some (Ev.finished urls sum)
      ∨ (process_normal_job w c cancel files).getLast? = some (Ev.cancelled urls sum) →
      sum.renamed + sum.manual = countPD (process_normal_job w c cancel files)) := by
  constructor
  · intro w c m cancel base pages i st st2 h
    have hinv := processPagesLoop_inv pages i st st2 h
    exact ⟨hinv.1, hinv.2.1, hinv.2.2.1⟩
  · intro w c cancel files urls sum hlast
    unfold process_normal_job at hlast ⊢
    cases hn : normalLoop w c cancel files ⟨⟨0, 0, [], []⟩, [], 0⟩ with
    | error evs =>
      rw [hn] at hlast
      dsimp only at hlast
      rw [List.getLast?_concat] at hlast
      rcases hlast with h | h <;> simp at h
    | ok t =>
      rw [hn] at hlast
      dsimp only at hlast ⊢
      have hinv := normalLoop_inv files _ _ hn
      dsimp only at hinv
      have hz : countPD ([] : List Ev) = 0 := rfl
      by_cases hc : cancel (t.ctr + 1)
      · rw [if_pos hc] at hlast ⊢
        rw [List.getLast?_concat] at hlast
        rcases hlast with h | h
        · simp at h
        · simp only [Option.some.injEq, Ev.cancelled.injEq] at h
          rw [countPD_append, ← h.2]
          have hone : countPD [Ev.cancelled (jobZipUrls cancel files t ++ ["parcial_cancelado.zip"]) t.totals] = 0 := rfl
          omega
      · rw [if_neg hc] at hlast ⊢
        rw [List.getLast?_concat] at hlast
        rcases hlast with h | h
        · simp only [Option.some.injEq, Ev.finished.injEq] at h
          rw [countPD_append, ← h.2]
          have hone : countPD [Ev.finished (jobZipUrls cancel files t) t.totals] = 0 := rfl
          omega
        · simp at h

/-- Witness for C4: the finished-job hypothesis discharged on a
concrete two-page run with one renamed and one manual page. -/
theorem claim_C4_witness :
    (⟨1, 1, ["Página 2 de d.pdf"], [⟨"d", 2, 1, 1⟩]⟩ : TotalStats).renamed
      + (⟨1, 1, ["Página 2 de d.pdf"], [⟨"d", 2, 1, 1⟩]⟩ : TotalStats).manual
      = countPD (process_normal_job serOK true cancelNever
          [("d.pdf", ["EMPREGADO: JOAO DA SILVA", "xx"])]) :=
  claim_C4.2 serOK true cancelNever [("d.pdf", ["EMPREGADO: JOAO DA SILVA", "xx"])]
    ["documentos_desmembrados.zip"] ⟨1, 1, ["Página 2 de d.pdf"], [⟨"d", 2, 1, 1⟩]⟩
    (Or.inl (by decide))

/-- C5.  Cancellation is cooperative: once a page-loop checkpoint reads
the flag as set, the rest of the document emits no further events (in
particular no `page_done`); a job whose flag was read as set by some
checkpoint still ends with a `cancelled` event; and when the flag is
never set no page is ever skipped — every page of the document emits its
`page_done` (the flag is only consulted at the checkpoints, never
preemptively). -/
theorem claim_C5 :
    (∀ (w : Nat → WriteOpts → Option (List Nat)) (c m : Bool) (cancel : Nat → Bool)
      (base : String) (pages : List String) (i : Nat) (st st2 : PState),
      cancel st.ctr = true →
      processPagesLoop w c m cancel base pages i st = Except.ok st2 → st2.evs = st.evs)
    ∧ (∀ (w : Nat → WriteOpts → Option (List Nat)) (c : Bool) (cancel : Nat → Bool)
      (files : List (String × List String)) (t : TState) (n : Nat),
      StickyCancel cancel →
      normalLoop w c cancel files ⟨⟨0, 0, [], []⟩, [], 0⟩ = Except.ok t →
      n ≤ t.ctr + 1 → cancel n = true →
      ∃ urls sum, (process_normal_job w c cancel files).getLast? = some (Ev.cancelled urls sum))
    ∧ (∀ (w : Nat → WriteOpts → Option (List Nat)) (c : Bool) (cancel : Nat → Bool)
      (base : String) (pages : List String) (i : Nat) (st : PState),
      (∀ n, cancel n = false) → (∀ j, pageWriteBytes w c j ≠ none) →
      ∃ st2, processPagesLoop w c false cancel base pages i st = Except.ok st2
        ∧ countPD st2.evs = countPD st.evs + pages.length) := by
  refine ⟨?_, ?_, ?_⟩
  · intro w c m cancel base pages i st st2 hcan h
    cases pages with
    | nil =>
      cases h
      rfl
    | cons raw rest =>
      rw [processPagesLoop, if_pos hcan] at h
      cases h
      rfl
  · intro w c cancel files t n hsticky hn hle hcan
    have hc : cancel (t.ctr + 1) = true := hsticky n (t.ctr + 1) hle hcan
    refine ⟨jobZipUrls cancel files t ++ ["parcial_cancelado.zip"], t.totals, ?_⟩
    unfold process_normal_job
    rw [hn]
    dsimp only
    rw [if_pos hc, List.getLast?_concat]
  · intro w c cancel base pages i st hcf hwr
    induction pages generalizing i st with
    | nil => exact ⟨st, rfl, by simp⟩
    | cons raw rest ih =>
      cases hp : processPage w c false base i raw { st with ctr := st.ctr + 1 } with
      | error e =>
        exfalso
        unfold processPage at hp
        simp only [Bool.false_eq_true, if_neg] at hp
        rcases Option.ne_none_iff_exists'.mp (hwr i) with ⟨b, hb⟩
        rw [hb] at hp
        cases hp
      | ok stm =>
        rcases ih (i + 1) stm with ⟨st2, hloop, hcount⟩
        refine ⟨st2, ?_, ?_⟩
        · rw [processPagesLoop, if_neg (by simp [hcf]), hp]
          exact hloop
        · have hps := processPage_step hp
          dsimp only at hps
          have h1 := hps.2.1
          simp only [List.length_cons]
          omega

/-- Witness for C5: a sticky flag set from the second read on; the
three-page job processes one page and ends with `cancelled`. -/
theorem claim_C5_witness :
    ∃ urls sum,
      (process_normal_job serOK true (cancelFrom 2)
        [("a.pdf", ["EMPREGADO: JOAO DA SILVA", "EMPREGADO: MARIA LIMA AQUI", "zz"])]).getLast?
        = some (Ev.cancelled urls sum) :=
  claim_C5.2.1 serOK true (cancelFrom 2)
    [("a.pdf", ["EMPREGADO: JOAO DA SILVA", "EMPREGADO: MARIA LIMA AQUI", "zz"])]
    ⟨⟨1, 0, [], [⟨"a", 3, 1, 0⟩]⟩,
      [Ev.file_start "a" 3, Ev.page_done "a" 1 "JOAO DA SILVA"], 4⟩ 2
    (fun i j hij hi => by
      simp only [cancelFrom, decide_eq_true_eq] at hi ⊢
      omega)
    (by rfl) (by decide) (by decide)

end FolhaPonto
